import Mathlib

/-!
# Voyage data recorder file writer

A shallow embedding of `arduino_voyage_data_recorder_tool/main.go`.

Go strings and byte slices are lists of byte values (`Nat`, each below 256 for data
that really comes from a reader).  Standard input is the list of the successive
results of `reader.ReadString('\n')`; once that list is used up the reader is at end
of file, `ReadString` keeps returning the empty string, and a prompt loop that is
still waiting never returns, which the embedding renders as `none`.

The Go standard library routines the program calls (`strings.TrimSpace`,
`strings.ToUpper`, `strconv.Atoi`, `binary.LittleEndian.PutUint32`) are embedded from
the library source of current Go releases, with a 64-bit `int`.  The Unicode
upper-case table behind `unicode.To(unicode.UpperCase, r)` is a parameter
`table : Nat → Nat`, used for non-ASCII runes only.
-/

namespace VDR

/-- Go `string` / `[]byte`. -/
abbrev Bytes := List Nat

/-! ## `unicode/utf8` -/

/-- Constant `utf8.RuneError`, the replacement character U+FFFD. -/
def RuneError : Nat := 0xFFFD

/-- Constant `utf8.RuneSelf`: bytes below it are single-byte runes. -/
def RuneSelf : Nat := 0x80

/-- Table `utf8.first`: what the first byte of a sequence announces
(`as = 0xF0`, `xx = 0xF1`, `s1 = 0x02`, `s2 = 0x13`, `s3 = 0x03`, `s4 = 0x23`,
`s5 = 0x34`, `s6 = 0x04`, `s7 = 0x44`). -/
def first (b : Nat) : Nat :=
  if b < 0x80 then 0xF0
  else if b < 0xC2 then 0xF1
  else if b < 0xE0 then 0x02
  else if b = 0xE0 then 0x13
  else if b < 0xED then 0x03
  else if b = 0xED then 0x23
  else if b < 0xF0 then 0x03
  else if b = 0xF0 then 0x34
  else if b < 0xF4 then 0x04
  else if b = 0xF4 then 0x44
  else 0xF1

/-- Table `utf8.acceptRanges`: the range allowed for the second byte. -/
def acceptRanges (k : Nat) : Nat × Nat :=
  match k with
  | 0 => (0x80, 0xBF)
  | 1 => (0xA0, 0xBF)
  | 2 => (0x80, 0x9F)
  | 3 => (0x90, 0xBF)
  | _ => (0x80, 0x8F)

/-- Routine `utf8.DecodeRuneInString`: the first rune of `s` and its width in bytes;
`(RuneError, 1)` on an invalid sequence, `(RuneError, 0)` on the empty string.  A
`range` loop over a string decodes with the same result. -/
def DecodeRuneInString (s : Bytes) : Nat × Nat :=
  match s with
  | [] => (RuneError, 0)
  | s0 :: t =>
    let x := first s0
    if x ≥ 0xF0 then
      (if x = 0xF0 then s0 else RuneError, 1)
    else
      let sz := x % 8
      let accept := acceptRanges (x / 16)
      if s.length < sz then (RuneError, 1)
      else
        match t with
        | [] => (RuneError, 1)
        | s1 :: t1 =>
          if s1 < accept.1 ∨ accept.2 < s1 then (RuneError, 1)
          else if sz ≤ 2 then (((s0 &&& 0x1F) <<< 6) ||| (s1 &&& 0x3F), 2)
          else
            match t1 with
            | [] => (RuneError, 1)
            | s2 :: t2 =>
              if s2 < 0x80 ∨ 0xBF < s2 then (RuneError, 1)
              else if sz ≤ 3 then
                (((s0 &&& 0x0F) <<< 12) ||| ((s1 &&& 0x3F) <<< 6) ||| (s2 &&& 0x3F), 3)
              else
                match t2 with
                | [] => (RuneError, 1)
                | s3 :: _ =>
                  if s3 < 0x80 ∨ 0xBF < s3 then (RuneError, 1)
                  else
                    (((s0 &&& 0x07) <<< 18) ||| ((s1 &&& 0x3F) <<< 12)
                      ||| ((s2 &&& 0x3F) <<< 6) ||| (s3 &&& 0x3F), 4)

/-- Routine `utf8.RuneStart`: the byte is not a continuation byte. -/
def RuneStart (b : Nat) : Bool := b &&& 0xC0 != 0x80

/-- The backwards scan of `utf8.DecodeLastRuneInString`
(`for start--; start >= lim; start-- { if RuneStart(s[start]) { break } }`),
entered with `start` already decremented once. -/
def lastRuneScan (s : Bytes) (lim : Int) : Nat → Int → Int
  | 0, start => start
  | k + 1, start =>
    if start ≥ lim then
      if RuneStart (s.getD start.toNat 0) then start
      else lastRuneScan s lim k (start - 1)
    else start

/-- Routine `utf8.DecodeLastRuneInString`: the last rune of `s` and its width. -/
def DecodeLastRuneInString (s : Bytes) : Nat × Nat :=
  let stop := s.length
  if stop = 0 then (RuneError, 0)
  else
    let r := s.getD (stop - 1) 0
    if r < RuneSelf then (r, 1)
    else
      let lim : Int := if (stop : Int) - 4 < 0 then 0 else (stop : Int) - 4
      let start0 := lastRuneScan s lim 4 ((stop : Int) - 2)
      let start := if start0 < 0 then 0 else start0.toNat
      let (r1, size) := DecodeRuneInString (s.drop start)
      if start + size ≠ stop then (RuneError, 1) else (r1, size)

/-- Routine `utf8.RuneLen`: bytes needed to encode the rune (`-1`, here `0`, when the
rune is not valid). -/
def RuneLen (r : Nat) : Nat :=
  if r ≤ 0x7F then 1
  else if r ≤ 0x7FF then 2
  else if 0xD800 ≤ r ∧ r ≤ 0xDFFF then 0
  else if r ≤ 0xFFFF then 3
  else if r ≤ 0x10FFFF then 4
  else 0

/-- The three-byte case of `utf8.AppendRune`. -/
def encode3 (r : Nat) : Bytes :=
  [0xE0 ||| ((r >>> 12) % 256), 0x80 ||| (((r >>> 6) % 256) &&& 0x3F),
    0x80 ||| ((r % 256) &&& 0x3F)]

/-- Routine `utf8.AppendRune` (also `strings.Builder.WriteRune`): the UTF-8 encoding
of `r`; a surrogate or a rune above U+10FFFF is written as `RuneError`. -/
def AppendRune (r : Nat) : Bytes :=
  if r ≤ 0x7F then [r % 256]
  else if r ≤ 0x7FF then [0xC0 ||| ((r >>> 6) % 256), 0x80 ||| ((r % 256) &&& 0x3F)]
  else if r > 0x10FFFF ∨ (0xD800 ≤ r ∧ r ≤ 0xDFFF) then encode3 RuneError
  else if r ≤ 0xFFFF then encode3 r
  else
    [0xF0 ||| ((r >>> 18) % 256), 0x80 ||| (((r >>> 12) % 256) &&& 0x3F),
      0x80 ||| (((r >>> 6) % 256) &&& 0x3F), 0x80 ||| ((r % 256) &&& 0x3F)]

/-! ## `unicode` -/

/-- Routine `unicode.IsSpace`: Latin-1 spaces by the `switch`, the rest by the
`White_Space` range table. -/
def IsSpace (r : Nat) : Bool :=
  if r ≤ 0xFF then
    r = 0x09 ∨ r = 0x0A ∨ r = 0x0B ∨ r = 0x0C ∨ r = 0x0D ∨ r = 0x20 ∨ r = 0x85 ∨ r = 0xA0
  else
    r = 0x1680 ∨ (0x2000 ≤ r ∧ r ≤ 0x200A) ∨ r = 0x2028 ∨ r = 0x2029 ∨ r = 0x202F
      ∨ r = 0x205F ∨ r = 0x3000

/-- Routine `unicode.ToUpper`: ASCII letters by arithmetic, every other rune through
the case table `To(UpperCase, r)`, here the parameter `table`. -/
def unicodeToUpper (table : Nat → Nat) (r : Nat) : Nat :=
  if r ≤ 0x7F then
    if 0x61 ≤ r ∧ r ≤ 0x7A then r - 0x20 else r
  else table r

/-! ## `strings` -/

/-- The first loop of `strings.Map`, over the suffix `s` that starts at offset `i`:
the offset of the first rune that has to be rewritten (the mapping changes it, or it
is an invalid byte), the rune that replaces it and the width it occupies; `none` when
every rune stays as it is. -/
def mapScan (mapping : Nat → Nat) : Nat → Nat → Bytes → Option (Nat × Nat × Nat)
  | 0, _, _ => none
  | fuel + 1, i, s =>
    match s with
    | [] => none
    | _ :: _ =>
      let c := (DecodeRuneInString s).1
      let step := (DecodeRuneInString s).2
      let r := mapping c
      if r = c ∧ c ≠ RuneError then mapScan mapping fuel (i + step) (s.drop step)
      else
        let width := if c = RuneError then (DecodeRuneInString s).2 else RuneLen c
        if c = RuneError ∧ width ≠ 1 ∧ r = c then
          mapScan mapping fuel (i + step) (s.drop step)
        else some (i, r, width)

/-- The second loop of `strings.Map`: every remaining rune is mapped and written. -/
def mapRest (mapping : Nat → Nat) : Nat → Bytes → Bytes
  | 0, _ => []
  | fuel + 1, s =>
    match s with
    | [] => []
    | _ :: _ =>
      AppendRune (mapping (DecodeRuneInString s).1)
        ++ mapRest mapping fuel (s.drop (DecodeRuneInString s).2)

/-- Routine `strings.Map` for a mapping that never returns a negative rune. -/
def Map (mapping : Nat → Nat) (s : Bytes) : Bytes :=
  match mapScan mapping s.length 0 s with
  | none => s
  | some (i, r, width) =>
    s.take i ++ AppendRune r ++ mapRest mapping s.length (s.drop (i + width))

/-- Routine `strings.ToUpper`: ASCII-only strings are converted byte by byte, any
other string goes through `Map(unicode.ToUpper, s)`. -/
def ToUpper (table : Nat → Nat) (s : Bytes) : Bytes :=
  let isASCII := s.all (fun c => decide (c < RuneSelf))
  let hasLower := s.any (fun c => decide (0x61 ≤ c ∧ c ≤ 0x7A))
  if isASCII then
    if !hasLower then s
    else s.map (fun c => if 0x61 ≤ c ∧ c ≤ 0x7A then c - 0x20 else c)
  else Map (unicodeToUpper table) s

/-- Routine `strings.indexFunc` over the suffix `s` at offset `i`: offset of the first
rune `r` with `f r = truth`; `none` stands for `-1`. -/
def indexFunc (f : Nat → Bool) (truth : Bool) : Nat → Nat → Bytes → Option Nat
  | 0, _, _ => none
  | fuel + 1, i, s =>
    match s with
    | [] => none
    | _ :: _ =>
      if f (DecodeRuneInString s).1 = truth then some i
      else indexFunc f truth fuel (i + (DecodeRuneInString s).2)
        (s.drop (DecodeRuneInString s).2)

/-- Routine `strings.lastIndexFunc`, the loop `for i := len(s); i > 0;`: offset of the
last rune `r` with `f r = truth`; `none` stands for `-1`. -/
def lastIndexFunc (f : Nat → Bool) (truth : Bool) (s : Bytes) : Nat → Nat → Option Nat
  | 0, _ => none
  | fuel + 1, i =>
    if i > 0 then
      let r := (DecodeLastRuneInString (s.take i)).1
      let size := (DecodeLastRuneInString (s.take i)).2
      if f r = truth then some (i - size)
      else lastIndexFunc f truth s fuel (i - size)
    else none

/-- Routine `strings.TrimLeftFunc`. -/
def TrimLeftFunc (s : Bytes) (f : Nat → Bool) : Bytes :=
  match indexFunc f false s.length 0 s with
  | none => []
  | some i => s.drop i

/-- Routine `strings.TrimRightFunc`. -/
def TrimRightFunc (s : Bytes) (f : Nat → Bool) : Bytes :=
  match lastIndexFunc f false s s.length s.length with
  | some i =>
    if s.getD i 0 ≥ RuneSelf then s.take (i + (DecodeRuneInString (s.drop i)).2)
    else s.take (i + 1)
  | none => s.take 0

/-- Routine `strings.TrimFunc`. -/
def TrimFunc (s : Bytes) (f : Nat → Bool) : Bytes :=
  TrimRightFunc (TrimLeftFunc s f) f

/-- Table `strings.asciiSpace`. -/
def asciiSpace (c : Nat) : Bool :=
  c = 0x09 ∨ c = 0x0A ∨ c = 0x0B ∨ c = 0x0C ∨ c = 0x0D ∨ c = 0x20

/-- The second loop of `strings.TrimSpace`, run on the reversed string: drops the
ASCII spaces at the end; at a non-ASCII byte the remaining string `s[start:stop]`
is handed to `TrimRightFunc`. -/
def trimSpaceRight : Bytes → Bytes
  | [] => []
  | c :: rev =>
    if c ≥ RuneSelf then TrimRightFunc (c :: rev).reverse IsSpace
    else if asciiSpace c then trimSpaceRight rev
    else (c :: rev).reverse

/-- Routine `strings.TrimSpace`: the first loop drops the ASCII spaces in front; at a
non-ASCII byte the rest of the string is handed to `TrimFunc`. -/
def TrimSpace : Bytes → Bytes
  | [] => []
  | c :: s =>
    if c ≥ RuneSelf then TrimFunc (c :: s) IsSpace
    else if asciiSpace c then TrimSpace s
    else trimSpaceRight (c :: s).reverse

/-! ## `strconv` -/

/-- The digit loop of `strconv.ParseUint(s, 10, 64)`; `n` is the value so far.
Returns the value, whether the error is `nil`, and whether it is a range error: a
syntax error gives the value 0, an overflow gives `maxVal` at once, without reading
the rest of the string. -/
def parseUintLoop : Bytes → Nat → Nat × Bool × Bool
  | [], n => (n, true, false)
  | c :: s, n =>
    if 0x30 ≤ c ∧ c ≤ 0x39 then
      if n ≥ (2 ^ 64 - 1) / 10 + 1 then (2 ^ 64 - 1, false, true)
      else if n * 10 + (c - 0x30) > 2 ^ 64 - 1 then (2 ^ 64 - 1, false, true)
      else parseUintLoop s (n * 10 + (c - 0x30))
    else (0, false, false)

/-- Routine `strconv.ParseUint(s, 10, 64)`: value, no-error flag, range-error flag. -/
def ParseUint (s : Bytes) : Nat × Bool × Bool :=
  match s with
  | [] => (0, false, false)
  | _ :: _ => parseUintLoop s 0

/-- Routine `strconv.ParseInt(s, 10, 0)` with a 64-bit `int`: the value returned and
whether the error is `nil`. -/
def ParseInt (s : Bytes) : Int × Bool :=
  match s with
  | [] => (0, false)
  | c :: t =>
    let neg := decide (c = 0x2D)
    let digits := if c = 0x2B ∨ c = 0x2D then t else s
    let (un, ok, rangeErr) := ParseUint digits
    if !ok && !rangeErr then (0, false)
    else if !neg && decide (un ≥ 2 ^ 63) then ((2 : Int) ^ 63 - 1, false)
    else if neg && decide (un > 2 ^ 63) then (-(2 : Int) ^ 63, false)
    else (if neg then -(un : Int) else (un : Int), ok)

/-- The digit loop of the fast path of `strconv.Atoi`; `none` is a syntax error. -/
def atoiFast : Bytes → Nat → Option Nat
  | [], n => some n
  | ch :: s, n =>
    if 0x30 ≤ ch ∧ ch ≤ 0x39 then atoiFast s (n * 10 + (ch - 0x30)) else none

/-- Routine `strconv.Atoi` with a 64-bit `int`: the value returned and whether the
error is `nil`.  Strings of 1 to 18 bytes take the fast path, the others go through
`ParseInt`. -/
def AtoiErr (s : Bytes) : Int × Bool :=
  if 0 < s.length ∧ s.length < 19 then
    match s with
    | [] => (0, false)
    | c :: t =>
      let digits := if c = 0x2D ∨ c = 0x2B then t else s
      if digits.length < 1 then (0, false)
      else
        match atoiFast digits 0 with
        | none => (0, false)
        | some n => (if c = 0x2D then -(n : Int) else (n : Int), true)
  else ParseInt s

/-- The value of `number, _ := strconv.Atoi(s)`: the error is dropped. -/
def Atoi (s : Bytes) : Int := (AtoiErr s).1

/-! ## `encoding/binary` -/

/-- Routine `binary.LittleEndian.PutUint32` on a 4-byte slice (`v` is a `uint32`). -/
def PutUint32 (v : Nat) : Bytes :=
  [v % 256, (v >>> 8) % 256, (v >>> 16) % 256, (v >>> 24) % 256]

/-- Routine `binary.LittleEndian.Uint32` on a slice of at least 4 bytes. -/
def Uint32 (b : Bytes) : Nat :=
  (b.getD 0 0 ||| (b.getD 1 0 <<< 8) ||| (b.getD 2 0 <<< 16) ||| (b.getD 3 0 <<< 24)) % 2 ^ 32

/-! ## `main.go` -/

/-- The literal `hardcodedSpeedData` of `newVDRFile`:
`5, 2,"DEADSLW", 5,"SLOW   ", 10,"HALF   ", 20,"FULL   ", 22,"FLANK  "`. -/
def hardcodedSpeedData : Bytes :=
  [5, 2, 0x44, 0x45, 0x41, 0x44, 0x53, 0x4C, 0x57,
    5, 0x53, 0x4C, 0x4F, 0x57, 0x20, 0x20, 0x20,
    10, 0x48, 0x41, 0x4C, 0x46, 0x20, 0x20, 0x20,
    20, 0x46, 0x55, 0x4C, 0x4C, 0x20, 0x20, 0x20,
    22, 0x46, 0x4C, 0x41, 0x4E, 0x4B, 0x20, 0x20]

/-- The prompt loop `for len(shipName) == 0 || len(shipName) > 32`: the first argument
is the current value of `shipName`, the second what the reader still holds.  Returns
the name the loop leaves with and the unread lines. -/
def shipNameLoop : Bytes → List Bytes → Option (Bytes × List Bytes)
  | shipName, [] =>
    if shipName.length = 0 ∨ shipName.length > 32 then none else some (shipName, [])
  | shipName, line :: rest =>
    if shipName.length = 0 ∨ shipName.length > 32 then shipNameLoop (TrimSpace line) rest
    else some (shipName, line :: rest)

/-- One pass of the body of the loop `for IMONumber == 0`: the line is trimmed and
parsed, and a positive `number` is stored as `uint32(number)`. -/
def imoStep (IMONumber : Nat) (line : Bytes) : Nat :=
  let IMOString := TrimSpace line
  let number := Atoi IMOString
  if number > 0 then (number % 2 ^ 32).toNat else IMONumber

/-- The prompt loop `for IMONumber == 0`. -/
def imoLoop : Nat → List Bytes → Option (Nat × List Bytes)
  | IMONumber, [] => if IMONumber = 0 then none else some (IMONumber, [])
  | IMONumber, line :: rest =>
    if IMONumber = 0 then imoLoop (imoStep IMONumber line) rest
    else some (IMONumber, line :: rest)

/-- The padding loop `for len(shipNameEncoded) < 32 { append(shipNameEncoded, ' ') }`. -/
def padLoop : Nat → Bytes → Bytes
  | 0, enc => enc
  | fuel + 1, enc => if enc.length < 32 then padLoop fuel (enc ++ [0x20]) else enc

/-- The value of `shipNameEncoded` when it is appended to `initialData`. -/
def shipNameEncoded (table : Nat → Nat) (shipName : Bytes) : Bytes :=
  padLoop 32 (ToUpper table shipName)

/-- The byte slice `initialData` that `newVDRFile` passes to `ioutil.WriteFile`. -/
def initialData (table : Nat → Nat) (shipName : Bytes) (IMONumber : Nat) : Bytes :=
  [0x41, 0x56, 0x44, 0x52] ++ [0x01] ++ shipNameEncoded table shipName
    ++ PutUint32 IMONumber ++ hardcodedSpeedData ++ [0xFF] ++ [0xFF] ++ [0xFF] ++ [0xFF]

/-- Function `newVDRFile`: the content written to `voyage_data_recorder.dat`; `none`
when a prompt loop never gets an acceptable line. -/
def newVDRFile (table : Nat → Nat) (reader : List Bytes) : Option Bytes :=
  match shipNameLoop [] reader with
  | none => none
  | some (shipName, rest) =>
    match imoLoop 0 rest with
    | none => none
    | some (IMONumber, _) => some (initialData table shipName IMONumber)

/-- A Go string literal or an input line as bytes (ASCII text only). -/
def ascii (s : String) : Bytes := s.toList.map Char.toNat

/-! ## Measuring and inspecting byte strings -/

/-- Routine `utf8.RuneCountInString` on the suffix `s`: the number of runes
(characters) of a string, an invalid byte counting as one. -/
def runeCount : Nat → Bytes → Nat
  | 0, _ => 0
  | fuel + 1, s =>
    match s with
    | [] => 0
    | _ :: _ => 1 + runeCount fuel (s.drop (DecodeRuneInString s).2)

/-- Number of characters of a string. -/
def RuneCountInString (s : Bytes) : Nat := runeCount s.length s

/-- The 4-byte terminator `FF FF FF FF`. -/
def terminator : Bytes := [0xFF, 0xFF, 0xFF, 0xFF]

/-- The terminator occurs in `bs` at offset `i`. -/
def occursAt (bs : Bytes) (i : Nat) : Prop := (bs.drop i).take 4 = terminator

instance (bs : Bytes) (i : Nat) : Decidable (occursAt bs i) := by
  unfold occursAt; infer_instance

/-- The byte string with bit `j` of the byte at offset `i` inverted. -/
def flipBit (bs : Bytes) (i j : Nat) : Bytes := bs.set i (bs.getD i 0 ^^^ 2 ^ j)

/-- A fragment of the Unicode upper-case table behind `unicode.To(UpperCase, r)`, for
concrete runs: it holds the entries of U+00E0..U+00FE except U+00F7 (Latin-1 letters,
32 below), of U+00FF (to U+0178) and of U+0250, turned a (to U+2C6F, range entry
`{0x0250, 0x0250, d{10783, 0, 10783}}` of `unicode.CaseRanges`); any other rune is
returned as it is, as the table does for a rune without an entry. -/
def sampleCaseTable (r : Nat) : Nat :=
  if 0xE0 ≤ r ∧ r ≤ 0xFE ∧ r ≠ 0xF7 then r - 0x20
  else if r = 0xFF then 0x178
  else if r = 0x250 then 0x2C6F
  else r

/-- Sixteen times U+0250 `ɐ` in UTF-8 (`C9 90`): 16 characters, 32 bytes. -/
def turnedA16 : Bytes :=
  [0xC9, 0x90, 0xC9, 0x90, 0xC9, 0x90, 0xC9, 0x90, 0xC9, 0x90, 0xC9, 0x90, 0xC9, 0x90,
    0xC9, 0x90, 0xC9, 0x90, 0xC9, 0x90, 0xC9, 0x90, 0xC9, 0x90, 0xC9, 0x90, 0xC9, 0x90,
    0xC9, 0x90, 0xC9, 0x90]

/-- Twenty times U+00E9 `é` in UTF-8 (`C3 A9`): 20 characters, 40 bytes. -/
def eAcute20 : Bytes :=
  [0xC3, 0xA9, 0xC3, 0xA9, 0xC3, 0xA9, 0xC3, 0xA9, 0xC3, 0xA9, 0xC3, 0xA9, 0xC3, 0xA9,
    0xC3, 0xA9, 0xC3, 0xA9, 0xC3, 0xA9, 0xC3, 0xA9, 0xC3, 0xA9, 0xC3, 0xA9, 0xC3, 0xA9,
    0xC3, 0xA9, 0xC3, 0xA9, 0xC3, 0xA9, 0xC3, 0xA9, 0xC3, 0xA9, 0xC3, 0xA9]

/-! ## The reading side of the format

The program only writes.  The decoders below are the ones the format description
gives (sections 4.1 to 4.4); the log record encoder is described there as well and
has no code in `main.go` beyond the layout comment. -/

/-- Modelled from the spec: the error taxonomy of section 7 (the program has no error
type). -/
inductive CodecError where
  | InvalidInput
  | UnrecognizedFormat
  | UnsupportedVersion
  | MalformedHeader
  | Truncated
  | ChecksumMismatch
  | TooManyEntries
  | PayloadTooLarge
  deriving DecidableEq, Repr

deriving instance DecidableEq for Except

/-- Modelled from the spec: a speed table entry, `knots` (1 byte) and `name` (the
7-byte field as stored). -/
structure SpeedEntry where
  knots : Nat
  name : Bytes
  deriving DecidableEq, Repr

/-- Modelled from the spec: what decoding a header yields. -/
structure Header where
  shipName : Bytes
  imoNumber : Nat
  speedTable : List SpeedEntry
  deriving DecidableEq, Repr

/-- Modelled from the spec: a log entry; `eventType` and the payload length share one
byte of the record. -/
structure LogEntry where
  timestamp : Nat
  eventType : Nat
  payload : Bytes
  deriving DecidableEq, Repr

/-- Modelled from the spec: the loop of `decodeText` on the reversed field, dropping
the spaces at the end. -/
def dropSpaces : Bytes → Bytes
  | [] => []
  | c :: rev => if c = 0x20 then dropSpaces rev else c :: rev

/-- Modelled from the spec: `decodeText(bytes)` of section 4.1 (no decoder in
`main.go`): the bytes with trailing spaces stripped; never fails. -/
def decodeText (bytes : Bytes) : Bytes := (dropSpaces bytes.reverse).reverse

/-- Modelled from the spec: `decodeU32LE` of section 4.1 (no decoder in `main.go`):
4 bytes read as a little-endian unsigned integer; never fails. -/
def decodeU32LE (bytes : Bytes) : Nat :=
  bytes.getD 0 0 + 256 * bytes.getD 1 0 + 65536 * bytes.getD 2 0 + 16777216 * bytes.getD 3 0

/-- Modelled from the spec: the entries of a speed table, `count` groups of
`knots(1) | name(7)` taken from the front of `bytes`. -/
def decodeEntries : Nat → Bytes → List SpeedEntry
  | 0, _ => []
  | count + 1, bytes =>
    { knots := bytes.getD 0 0, name := (bytes.drop 1).take 7 }
      :: decodeEntries count (bytes.drop 8)

/-- Modelled from the spec: `decode(bytes, offset)` of the speed table codec, section
4.2 (no decoder in `main.go`): reads the count byte, then exactly `count × 8` bytes;
`Truncated` if fewer remain; returns the entries and the offset after the table. -/
def decodeSpeedTable (bytes : Bytes) (offset : Nat) : Except CodecError (List SpeedEntry × Nat) :=
  match bytes.drop offset with
  | [] => .error .Truncated
  | count :: table =>
    if table.length < count * 8 then .error .Truncated
    else .ok (decodeEntries count table, offset + 1 + count * 8)

/-- Modelled from the spec: `decode(bytes)` of the header codec, section 4.3 (no
decoder in `main.go`): magic, version 1, ship name (32 bytes, trailing spaces
stripped), IMO number (4 bytes, little-endian), speed table, then the terminator. -/
def decodeHeader (bytes : Bytes) : Except CodecError Header :=
  if bytes.take 4 ≠ [0x41, 0x56, 0x44, 0x52] then .error .UnrecognizedFormat
  else if bytes.length < 5 then .error .Truncated
  else if bytes.getD 4 0 ≠ 1 then .error .UnsupportedVersion
  else if bytes.length < 41 then .error .Truncated
  else
    match decodeSpeedTable bytes 41 with
    | .error e => .error e
    | .ok (speedTable, next) =>
      if (bytes.drop next).take 4 ≠ terminator then .error .MalformedHeader
      else
        .ok { shipName := decodeText ((bytes.drop 5).take 32),
              imoNumber := decodeU32LE ((bytes.drop 37).take 4),
              speedTable := speedTable }

/-- Modelled from the spec: the checksum rule of section 4.4 (in `main.go` only the
comment `Checksum = XOR of the previous bytes in the log`): the bitwise XOR of the
bytes. -/
def checksum (bytes : Bytes) : Nat := bytes.foldl (fun acc b => acc ^^^ b) 0

/-- Modelled from the spec: the bytes of a log record before its checksum,
`timestamp(4) | eventType+length(1) | payload`; the low `lenBits` bits of the combined
byte hold the payload length, the bits above them the event type. -/
def recordBody (lenBits timestamp eventType : Nat) (payload : Bytes) : Bytes :=
  PutUint32 timestamp ++ [(eventType * 2 ^ lenBits + payload.length) % 256] ++ payload

/-- Modelled from the spec: `encode(timestamp, eventType, payload)` of the log record
codec, section 4.4 (no code in `main.go`): `PayloadTooLarge` when the length does not
fit the `lenBits` length bits, else the body followed by its checksum. -/
def encodeLogRecord (lenBits timestamp eventType : Nat) (payload : Bytes) :
    Except CodecError Bytes :=
  if payload.length ≥ 2 ^ lenBits then .error .PayloadTooLarge
  else
    .ok (recordBody lenBits timestamp eventType payload
      ++ [checksum (recordBody lenBits timestamp eventType payload)])

/-- Modelled from the spec: `decode(bytes, offset)` of the log record codec, section
4.4 (no code in `main.go`): the terminator at `offset` ends the stream (`none`, not an
error); otherwise timestamp, combined byte, that many payload bytes and the checksum
byte are read (`Truncated` if bytes are missing) and the checksum is verified
(`ChecksumMismatch`); returns the entry and the offset after it. -/
def decodeLogRecord (lenBits : Nat) (bytes : Bytes) (offset : Nat) :
    Except CodecError (Option (LogEntry × Nat)) :=
  let rest := bytes.drop offset
  if rest.take 4 = terminator then .ok none
  else if rest.length < 5 then .error .Truncated
  else
    let typeAndLength := rest.getD 4 0
    let len := typeAndLength % 2 ^ lenBits
    if rest.length < 5 + len + 1 then .error .Truncated
    else if checksum (rest.take (5 + len)) ≠ rest.getD (5 + len) 0 then
      .error .ChecksumMismatch
    else
      .ok (some ({ timestamp := decodeU32LE (rest.take 4),
                   eventType := typeAndLength / 2 ^ lenBits,
                   payload := (rest.drop 5).take len }, offset + 5 + len + 1))

/-! ## What the prompt loops accept -/

/-- The line ends the ship-name loop: its trimmed text makes the loop condition
`len(shipName) == 0 || len(shipName) > 32` false (`len` counts bytes). -/
def nameAccepted (line : Bytes) : Prop :=
  0 < (TrimSpace line).length ∧ (TrimSpace line).length ≤ 32

instance (line : Bytes) : Decidable (nameAccepted line) := by
  unfold nameAccepted; infer_instance

/-- The line ends the IMO loop: `number > 0` stores `uint32(number)`, and the stored
value makes the loop condition `IMONumber == 0` false. -/
def imoAccepted (line : Bytes) : Prop :=
  0 < Atoi (TrimSpace line) ∧ Atoi (TrimSpace line) % 2 ^ 32 ≠ 0

instance (line : Bytes) : Decidable (imoAccepted line) := by
  unfold imoAccepted; infer_instance

end VDR

namespace VDR

/-! ## Layout of `initialData` -/

theorem padLoop_eq (fuel : Nat) (enc : Bytes) (h : 32 - enc.length ≤ fuel) :
    padLoop fuel enc = enc ++ List.replicate (32 - enc.length) 0x20 := by
  induction fuel generalizing enc with
  | zero =>
    have h0 : 32 - enc.length = 0 := by omega
    simp [padLoop, h0]
  | succ k ih =>
    unfold padLoop
    by_cases hlt : enc.length < 32
    · have hk : 32 - (enc ++ [0x20]).length ≤ k := by
        simp only [List.length_append, List.length_singleton]; omega
      have hs : 32 - enc.length = (32 - (enc.length + 1)) + 1 := by omega
      rw [if_pos hlt, ih _ hk]
      simp only [List.length_append, List.length_singleton, List.append_assoc]
      rw [hs, List.replicate_succ]
      simp
    · have h0 : 32 - enc.length = 0 := by omega
      rw [if_neg hlt, h0]
      simp

theorem shipNameEncoded_eq (table : Nat → Nat) (shipName : Bytes) :
    shipNameEncoded table shipName
      = ToUpper table shipName
        ++ List.replicate (32 - (ToUpper table shipName).length) 0x20 := by
  unfold shipNameEncoded
  exact padLoop_eq 32 _ (by omega)

theorem shipNameEncoded_length (table : Nat → Nat) (shipName : Bytes) :
    (shipNameEncoded table shipName).length = max 32 (ToUpper table shipName).length := by
  rw [shipNameEncoded_eq]
  simp only [List.length_append, List.length_replicate]
  omega

theorem initialData_eq (table : Nat → Nat) (shipName : Bytes) (IMONumber : Nat) :
    initialData table shipName IMONumber
      = ([0x41, 0x56, 0x44, 0x52, 0x01] ++ shipNameEncoded table shipName)
        ++ (PutUint32 IMONumber ++ (hardcodedSpeedData ++ terminator)) := by
  simp [initialData, terminator]

theorem initialData_length (table : Nat → Nat) (shipName : Bytes) (IMONumber : Nat) :
    (initialData table shipName IMONumber).length
      = 54 + max 32 (ToUpper table shipName).length := by
  rw [initialData_eq]
  simp only [List.length_append, shipNameEncoded_length, PutUint32, hardcodedSpeedData,
    terminator, List.length_cons, List.length_nil]
  omega

theorem initialData_drop_name (table : Nat → Nat) (shipName : Bytes) (IMONumber : Nat) :
    (initialData table shipName IMONumber).drop (5 + (shipNameEncoded table shipName).length)
      = PutUint32 IMONumber ++ (hardcodedSpeedData ++ terminator) := by
  rw [initialData_eq]
  apply List.drop_left'
  simp only [List.length_append, List.length_cons, List.length_nil]

theorem ToUpper_length_of_ascii (table : Nat → Nat) (s : Bytes)
    (h : ∀ c ∈ s, c < RuneSelf) : (ToUpper table s).length = s.length := by
  have hall : s.all (fun c => decide (c < RuneSelf)) = true := by
    simpa [List.all_eq_true] using h
  unfold ToUpper
  simp only [hall, if_true]
  split <;> simp

theorem PutUint32_getD (n i : Nat) (hi : i < 4) :
    (PutUint32 n).getD i 0 = (n >>> (8 * i)) &&& 0xFF := by
  have hmod : ∀ x : Nat, x &&& 0xFF = x % 256 := fun x =>
    Nat.and_pow_two_sub_one_eq_mod x 8
  interval_cases i <;> simp [PutUint32, hmod]

theorem Uint32_PutUint32 (n : Nat) (hn : n < 2 ^ 32) : Uint32 (PutUint32 n) = n := by
  simp only [Uint32, PutUint32, List.getD_cons_zero, List.getD_cons_succ]
  rw [Nat.mod_eq_of_lt]
  · apply Nat.eq_of_testBit_eq
    intro i
    simp only [Nat.testBit_or, Nat.testBit_shiftLeft, Nat.testBit_shiftRight,
      show (256 : Nat) = 2 ^ 8 from rfl, Nat.testBit_mod_two_pow]
    by_cases h8 : i < 8
    · simp [h8, show ¬ 8 ≤ i by omega, show ¬ 16 ≤ i by omega, show ¬ 24 ≤ i by omega]
    · by_cases h16 : i < 16
      · simp [h8, show 8 ≤ i by omega, show ¬ 16 ≤ i by omega, show ¬ 24 ≤ i by omega,
          show i - 8 < 8 by omega, show 8 + (i - 8) = i by omega]
      · by_cases h24 : i < 24
        · simp [h8, show 8 ≤ i by omega, show 16 ≤ i by omega, show ¬ 24 ≤ i by omega,
            show ¬ i - 8 < 8 by omega, show i - 16 < 8 by omega,
            show 16 + (i - 16) = i by omega]
        · by_cases h32 : i < 32
          · simp [h8, show 8 ≤ i by omega, show 16 ≤ i by omega, show 24 ≤ i by omega,
              show ¬ i - 8 < 8 by omega, show ¬ i - 16 < 8 by omega,
              show i - 24 < 8 by omega, show 24 + (i - 24) = i by omega]
          · have hlt : n < 2 ^ i :=
              lt_of_lt_of_le hn (Nat.pow_le_pow_right (by norm_num) (by omega))
            simp [h8, show 8 ≤ i by omega, show 16 ≤ i by omega, show 24 ≤ i by omega,
              show ¬ i - 8 < 8 by omega, show ¬ i - 16 < 8 by omega,
              show ¬ i - 24 < 8 by omega, Nat.testBit_lt_two_pow hlt]
  · have h0 : n % 256 < 2 ^ 32 := by omega
    have h1 : (n >>> 8 % 256) <<< 8 < 2 ^ 32 := by
      rw [Nat.shiftLeft_eq]; have := Nat.mod_lt (n >>> 8) (show 256 > 0 by norm_num); omega
    have h2 : (n >>> 16 % 256) <<< 16 < 2 ^ 32 := by
      rw [Nat.shiftLeft_eq]; have := Nat.mod_lt (n >>> 16) (show 256 > 0 by norm_num); omega
    have h3 : (n >>> 24 % 256) <<< 24 < 2 ^ 32 := by
      rw [Nat.shiftLeft_eq]; have := Nat.mod_lt (n >>> 24) (show 256 > 0 by norm_num); omega
    exact Nat.or_lt_two_pow (Nat.or_lt_two_pow (Nat.or_lt_two_pow h0 h1) h2) h3

/-! ## Claims on the header layout -/

/-- C2, as the code behaves, amended: whenever the upper-cased ship name is at most 32
bytes long, the byte sequence `newVDRFile` assembles is exactly 86 bytes long (not 81)
and its last 4 bytes are the terminator `FF FF FF FF`. -/
theorem header_size_86 (table : Nat → Nat) (shipName : Bytes) (IMONumber : Nat)
    (h : (ToUpper table shipName).length ≤ 32) :
    (initialData table shipName IMONumber).length = 86
      ∧ (initialData table shipName IMONumber).drop
          ((initialData table shipName IMONumber).length - 4) = terminator := by
  have hlen := initialData_length table shipName IMONumber
  have hmax : max 32 (ToUpper table shipName).length = 32 := by omega
  rw [hmax] at hlen
  refine ⟨hlen, ?_⟩
  rw [hlen, initialData_eq, ← List.append_assoc, ← List.append_assoc]
  apply List.drop_left'
  simp only [List.length_append, shipNameEncoded_length, hmax, PutUint32, hardcodedSpeedData,
    List.length_cons, List.length_nil]

/-- Witness of `header_size_86`: "Example Vessel", 1234567. -/
theorem header_size_86_witness :
    (ToUpper sampleCaseTable (ascii "Example Vessel")).length ≤ 32
      ∧ (initialData sampleCaseTable (ascii "Example Vessel") 1234567).length = 86
      ∧ (initialData sampleCaseTable (ascii "Example Vessel") 1234567).drop
          ((initialData sampleCaseTable (ascii "Example Vessel") 1234567).length - 4)
          = terminator :=
  ⟨by decide, header_size_86 sampleCaseTable (ascii "Example Vessel") 1234567 (by decide)⟩

/-- C2 as stated fails: for the lines "Example Vessel" and "1234567" the program writes
86 bytes, not 81. -/
theorem header_size_not_81 :
    newVDRFile sampleCaseTable [ascii "Example Vessel\n", ascii "1234567\n"]
        = some (initialData sampleCaseTable (ascii "Example Vessel") 1234567)
      ∧ (initialData sampleCaseTable (ascii "Example Vessel") 1234567).length = 86
      ∧ (initialData sampleCaseTable (ascii "Example Vessel") 1234567).length ≠ 81 := by
  decide

/-- C3, the code at the failing input: the name made of sixteen `ɐ` (16 characters, 32
bytes, nothing to trim) passes the length check of the prompt loop, and its encoded
ship-name field is 48 bytes long, not 32. -/
theorem shipName_field_overflow :
    RuneCountInString turnedA16 = 16 ∧ turnedA16.length = 32
      ∧ shipNameLoop [] [turnedA16 ++ [0x0A]] = some (turnedA16, [])
      ∧ (shipNameEncoded sampleCaseTable turnedA16).length = 48 := by
  decide

/-- C4: for every 32-bit unsigned IMO number `n`, the 4 bytes `newVDRFile` appends
after the ship-name field are `n` in little-endian order, byte `i` being
`(n >> 8*i) & 0xFF`, and reading them back with `binary.LittleEndian.Uint32` returns
`n`. -/
theorem imo_little_endian (table : Nat → Nat) (shipName : Bytes) (n : Nat) (hn : n < 2 ^ 32) :
    ((initialData table shipName n).drop (5 + (shipNameEncoded table shipName).length)).take 4
        = PutUint32 n
      ∧ (∀ i, i < 4 → (PutUint32 n).getD i 0 = (n >>> (8 * i)) &&& 0xFF)
      ∧ Uint32 (PutUint32 n) = n := by
  refine ⟨?_, fun i hi => PutUint32_getD n i hi, Uint32_PutUint32 n hn⟩
  rw [initialData_drop_name]
  simp [PutUint32]

/-- Witness of `imo_little_endian`: 1234567 is encoded as `87 D6 12 00`. -/
theorem imo_little_endian_witness :
    PutUint32 1234567 = [0x87, 0xD6, 0x12, 0x00]
      ∧ ((initialData sampleCaseTable (ascii "Example Vessel") 1234567).drop
          (5 + (shipNameEncoded sampleCaseTable (ascii "Example Vessel")).length)).take 4
        = PutUint32 1234567
      ∧ (∀ i, i < 4 → (PutUint32 1234567).getD i 0 = (1234567 >>> (8 * i)) &&& 0xFF)
      ∧ Uint32 (PutUint32 1234567) = 1234567 :=
  ⟨by decide, imo_little_endian sampleCaseTable (ascii "Example Vessel") 1234567 (by decide)⟩

/-- C5: whatever the inputs, the bytes `newVDRFile` appends between the IMO field and
the terminator are a count byte 5 followed by exactly 5 × 8 bytes, and they decode, in
order, to knots 2, 5, 10, 20, 22 with the 7-byte names "DEADSLW", "SLOW   ", "HALF   ",
"FULL   ", "FLANK  ". -/
theorem default_speed_table (table : Nat → Nat) (shipName : Bytes) (IMONumber : Nat) :
    (initialData table shipName IMONumber).drop
        (5 + (shipNameEncoded table shipName).length + 4)
        = hardcodedSpeedData ++ terminator
      ∧ hardcodedSpeedData.head? = some 5
      ∧ hardcodedSpeedData.tail.length = 5 * 8
      ∧ decodeSpeedTable hardcodedSpeedData 0
        = .ok ([⟨2, ascii "DEADSLW"⟩, ⟨5, ascii "SLOW   "⟩, ⟨10, ascii "HALF   "⟩,
                ⟨20, ascii "FULL   "⟩, ⟨22, ascii "FLANK  "⟩], 41) := by
  refine ⟨?_, by decide, by decide, by decide⟩
  rw [← List.drop_drop, initialData_drop_name]
  simp [PutUint32]

/-! ## The prompt loops -/

theorem shipNameLoop_done (shipName : Bytes) (reader : List Bytes)
    (h : ¬ (shipName.length = 0 ∨ shipName.length > 32)) :
    shipNameLoop shipName reader = some (shipName, reader) := by
  cases reader <;> simp only [shipNameLoop, if_neg h]

theorem shipNameLoop_read (shipName line : Bytes) (rest : List Bytes)
    (h : shipName.length = 0 ∨ shipName.length > 32) :
    shipNameLoop shipName (line :: rest) = shipNameLoop (TrimSpace line) rest := by
  simp only [shipNameLoop, if_pos h]

theorem shipNameLoop_accept (line : Bytes) (rest : List Bytes) (h : nameAccepted line) :
    shipNameLoop [] (line :: rest) = some (TrimSpace line, rest) := by
  rw [shipNameLoop_read [] line rest (Or.inl rfl)]
  exact shipNameLoop_done _ _ (by unfold nameAccepted at h; omega)

theorem shipNameLoop_reject (line : Bytes) (rest : List Bytes) (h : ¬ nameAccepted line) :
    shipNameLoop [] (line :: rest) = shipNameLoop [] rest := by
  have hc : (TrimSpace line).length = 0 ∨ (TrimSpace line).length > 32 := by
    unfold nameAccepted at h; omega
  rw [shipNameLoop_read [] line rest (Or.inl rfl)]
  cases rest with
  | nil => simp only [shipNameLoop, if_pos hc, if_pos (Or.inl rfl : ([] : Bytes).length = 0 ∨ ([] : Bytes).length > 32)]
  | cons l r => rw [shipNameLoop_read _ l r hc, shipNameLoop_read [] l r (Or.inl rfl)]

theorem imoLoop_done (IMONumber : Nat) (reader : List Bytes) (h : IMONumber ≠ 0) :
    imoLoop IMONumber reader = some (IMONumber, reader) := by
  cases reader <;> simp only [imoLoop, if_neg h]

theorem imoLoop_read (line : Bytes) (rest : List Bytes) :
    imoLoop 0 (line :: rest) = imoLoop (imoStep 0 line) rest := by
  simp only [imoLoop, if_true]

theorem toNat_emod_eq_zero (n : Int) : (n % 2 ^ 32).toNat = 0 ↔ n % 2 ^ 32 = 0 := by
  have h := Int.emod_nonneg n (show (2 : Int) ^ 32 ≠ 0 by norm_num)
  omega

theorem imoStep_accept (line : Bytes) (h : imoAccepted line) :
    imoStep 0 line = (Atoi (TrimSpace line) % 2 ^ 32).toNat ∧ imoStep 0 line ≠ 0 := by
  have hs : imoStep 0 line = (Atoi (TrimSpace line) % 2 ^ 32).toNat := by
    simp only [imoStep, if_pos h.1]
  refine ⟨hs, ?_⟩
  rw [hs]
  intro h0
  exact h.2 ((toNat_emod_eq_zero _).1 h0)

theorem imoStep_reject (line : Bytes) (h : ¬ imoAccepted line) : imoStep 0 line = 0 := by
  unfold imoStep
  by_cases hp : 0 < Atoi (TrimSpace line)
  · have hz : Atoi (TrimSpace line) % 2 ^ 32 = 0 := by
      by_contra hne
      exact h ⟨hp, hne⟩
    simp only [gt_iff_lt, if_pos hp, hz]
    rfl
  · simp only [gt_iff_lt, if_neg hp]

theorem imoLoop_accept (line : Bytes) (rest : List Bytes) (h : imoAccepted line) :
    imoLoop 0 (line :: rest) = some ((Atoi (TrimSpace line) % 2 ^ 32).toNat, rest) := by
  rw [imoLoop_read, imoLoop_done _ _ (imoStep_accept line h).2, (imoStep_accept line h).1]

theorem imoLoop_reject (line : Bytes) (rest : List Bytes) (h : ¬ imoAccepted line) :
    imoLoop 0 (line :: rest) = imoLoop 0 rest := by
  rw [imoLoop_read, imoStep_reject line h]

theorem shipNameLoop_rest (reader : List Bytes) :
    ∀ (current shipName : Bytes) (rest : List Bytes),
      shipNameLoop current reader = some (shipName, rest) →
        rest.length ≤ reader.length
          ∧ ((current.length = 0 ∨ current.length > 32) → rest.length < reader.length) := by
  induction reader with
  | nil =>
    intro current shipName rest h
    by_cases hc : current.length = 0 ∨ current.length > 32
    · simp only [shipNameLoop, if_pos hc] at h
      exact absurd h (by simp)
    · simp only [shipNameLoop, if_neg hc, Option.some.injEq, Prod.mk.injEq] at h
      refine ⟨by rw [← h.2], fun hc2 => absurd hc2 hc⟩
  | cons l t ih =>
    intro current shipName rest h
    by_cases hc : current.length = 0 ∨ current.length > 32
    · rw [shipNameLoop_read _ l t hc] at h
      have := (ih _ _ _ h).1
      simp only [List.length_cons]
      exact ⟨by omega, fun _ => by omega⟩
    · rw [shipNameLoop_done _ _ hc] at h
      simp only [Option.some.injEq, Prod.mk.injEq] at h
      refine ⟨by rw [← h.2], fun hc2 => absurd hc2 hc⟩

theorem imoLoop_rest (reader : List Bytes) :
    ∀ (current IMONumber : Nat) (rest : List Bytes),
      imoLoop current reader = some (IMONumber, rest) →
        rest.length ≤ reader.length ∧ IMONumber ≠ 0
          ∧ (current = 0 → rest.length < reader.length) := by
  induction reader with
  | nil =>
    intro current IMONumber rest h
    by_cases hc : current = 0
    · simp only [imoLoop, if_pos hc] at h
      exact absurd h (by simp)
    · simp only [imoLoop, if_neg hc, Option.some.injEq, Prod.mk.injEq] at h
      refine ⟨by rw [← h.2], by rw [← h.1]; exact hc, fun hc2 => absurd hc2 hc⟩
  | cons l t ih =>
    intro current IMONumber rest h
    by_cases hc : current = 0
    · subst hc
      rw [imoLoop_read] at h
      have := ih _ _ _ h
      simp only [List.length_cons]
      exact ⟨by omega, this.2.1, fun _ => by omega⟩
    · rw [imoLoop_done _ _ hc] at h
      simp only [Option.some.injEq, Prod.mk.injEq] at h
      refine ⟨by rw [← h.2], by rw [← h.1]; exact hc, fun hc2 => absurd hc2 hc⟩

/-- C6, as the code behaves, amended: the ship-name prompt loop accepts an entered
line exactly when its whitespace-trimmed text is non-empty and at most 32 bytes long
(`len` counts UTF-8 bytes, not characters); every other line is rejected and the
prompt is repeated on the lines that follow. -/
theorem shipName_prompt (line : Bytes) (rest : List Bytes) :
    (shipNameLoop [] (line :: rest) = some (TrimSpace line, rest)
        ↔ (0 < (TrimSpace line).length ∧ (TrimSpace line).length ≤ 32))
      ∧ (¬ (0 < (TrimSpace line).length ∧ (TrimSpace line).length ≤ 32)
          → shipNameLoop [] (line :: rest) = shipNameLoop [] rest) := by
  refine ⟨⟨fun h => ?_, fun h => shipNameLoop_accept line rest h⟩,
    fun h => shipNameLoop_reject line rest h⟩
  by_contra hn
  rw [shipNameLoop_reject line rest hn] at h
  have := (shipNameLoop_rest rest [] _ _ h).2 (Or.inl rfl)
  omega

/-- Witness of `shipName_prompt`: an empty line is rejected and the next line, padded
with blanks, is accepted with its trimmed text. -/
theorem shipName_prompt_witness :
    ¬ (0 < (TrimSpace (ascii "  \n")).length ∧ (TrimSpace (ascii "  \n")).length ≤ 32)
      ∧ shipNameLoop [] (ascii "  \n" :: [ascii " Example Vessel \n"])
          = shipNameLoop [] [ascii " Example Vessel \n"]
      ∧ shipNameLoop [] [ascii " Example Vessel \n"] = some (ascii "Example Vessel", []) :=
  ⟨by decide, (shipName_prompt (ascii "  \n") [ascii " Example Vessel \n"]).2 (by decide),
    by decide⟩

/-- C6 as stated fails: a line of twenty `é` has a trimmed text of 20 characters, which
is non-empty and at most 32 characters long, yet the loop rejects it (it is 40 bytes
long) and goes on to the next line. -/
theorem shipName_prompt_counts_bytes :
    TrimSpace (eAcute20 ++ [0x0A]) = eAcute20
      ∧ RuneCountInString eAcute20 = 20
      ∧ eAcute20.length = 40
      ∧ shipNameLoop [] [eAcute20 ++ [0x0A]] = none
      ∧ shipNameLoop [] [eAcute20 ++ [0x0A], ascii "Example Vessel\n"]
          = some (ascii "Example Vessel", []) := by
  decide

/-- What the IMO prompt loop does on one line, in terms of the value `strconv.Atoi`
returns for the trimmed text: the loop leaves on the line with that value modulo 2^32
exactly when the value is positive and not a multiple of 2^32, and otherwise goes on
to the lines that follow. -/
theorem imo_prompt (line : Bytes) (rest : List Bytes) :
    (imoLoop 0 (line :: rest) = some ((Atoi (TrimSpace line) % 2 ^ 32).toNat, rest)
        ↔ (0 < Atoi (TrimSpace line) ∧ Atoi (TrimSpace line) % 2 ^ 32 ≠ 0))
      ∧ (¬ (0 < Atoi (TrimSpace line) ∧ Atoi (TrimSpace line) % 2 ^ 32 ≠ 0)
          → imoLoop 0 (line :: rest) = imoLoop 0 rest) := by
  refine ⟨⟨fun h => ?_, fun h => imoLoop_accept line rest h⟩,
    fun h => imoLoop_reject line rest h⟩
  by_contra hn
  rw [imoLoop_reject line rest hn] at h
  have := (imoLoop_rest rest 0 _ _ h).2.2 rfl
  omega

/-- Witness of `imo_prompt`: the lines "abc", "0" and "-5" are rejected, "1234567" is
accepted. -/
theorem imo_prompt_witness :
    ¬ (0 < Atoi (TrimSpace (ascii "-5\n")) ∧ Atoi (TrimSpace (ascii "-5\n")) % 2 ^ 32 ≠ 0)
      ∧ imoLoop 0 (ascii "-5\n" :: [ascii "1234567\n"]) = imoLoop 0 [ascii "1234567\n"]
      ∧ imoLoop 0 [ascii "abc\n", ascii "0\n", ascii "-5\n", ascii " 1234567\n"]
          = some (1234567, []) :=
  ⟨by decide, (imo_prompt (ascii "-5\n") [ascii "1234567\n"]).2 (by decide), by decide⟩

/-- C7, the code at the failing inputs: "4294967296" parses without error as the
positive integer 2^32, yet the loop rejects the line (`uint32(number)` is 0) and
prompts again; and "99999999999999999999", which `strconv.Atoi` does not parse (range
error, value 2^63 - 1, the error dropped by `number, _ :=`), is accepted and stored as
4294967295, and so is the same line with a letter after the digits. -/
theorem imo_prompt_rejects_multiple_of_2_32 :
    AtoiErr (TrimSpace (ascii "4294967296\n")) = (4294967296, true)
      ∧ imoLoop 0 [ascii "4294967296\n"] = none
      ∧ imoLoop 0 [ascii "4294967296\n", ascii "7\n"] = some (7, [])
      ∧ AtoiErr (TrimSpace (ascii "99999999999999999999\n")) = (9223372036854775807, false)
      ∧ imoLoop 0 [ascii "99999999999999999999\n"] = some (4294967295, [])
      ∧ imoLoop 0 [ascii "99999999999999999999x\n"] = some (4294967295, []) := by
  decide

/-- Away from the two failing cases the IMO prompt loop validates as described: when
`strconv.Atoi` parses the trimmed text without error to an integer `n` below 2^32, the
loop accepts the line, leaving with `n` itself, exactly when `n` is positive, and it
prompts again otherwise; and a line with a syntax error (value 0) is rejected. -/
theorem imo_prompt_in_range (line : Bytes) (rest : List Bytes) (n : Int)
    (hparse : AtoiErr (TrimSpace line) = (n, true)) (hn : n < 2 ^ 32) :
    (imoLoop 0 (line :: rest) = some (n.toNat, rest) ↔ 0 < n)
      ∧ (¬ 0 < n → imoLoop 0 (line :: rest) = imoLoop 0 rest) := by
  have hval : Atoi (TrimSpace line) = n := by unfold Atoi; rw [hparse]
  have hrej : ¬ 0 < n → imoLoop 0 (line :: rest) = imoLoop 0 rest := fun hneg =>
    imoLoop_reject line rest (fun ha => hneg (hval ▸ ha.1))
  refine ⟨⟨fun h => ?_, fun hpos => ?_⟩, hrej⟩
  · by_contra hneg
    rw [hrej hneg] at h
    have := (imoLoop_rest rest 0 _ _ h).2.2 rfl
    omega
  · have hmod : n % 2 ^ 32 = n := Int.emod_eq_of_lt (le_of_lt hpos) hn
    have hacc : imoAccepted line := by
      unfold imoAccepted
      rw [hval, hmod]
      exact ⟨hpos, by omega⟩
    rw [imoLoop_accept line rest hacc, hval, hmod]

theorem imo_prompt_in_range_example :
    AtoiErr (TrimSpace (ascii " 1234567\n")) = (1234567, true)
      ∧ (imoLoop 0 (ascii " 1234567\n" :: []) = some ((1234567 : Int).toNat, []) ↔ (0 : Int) < 1234567)
      ∧ AtoiErr (TrimSpace (ascii "12a\n")) = (0, false)
      ∧ imoLoop 0 [ascii "12a\n", ascii "0\n", ascii "7\n"] = some (7, []) :=
  ⟨by decide, (imo_prompt_in_range (ascii " 1234567\n") [] 1234567 (by decide) (by decide)).1,
    by decide, by decide⟩

/-- C10: for an entered line that parses to an integer `n > 0`, the value the IMO loop
stores is `n mod 2^32`; the loop terminates on that line iff `n mod 2^32` is non-zero
(otherwise it prompts again), so the IMO number the loop leaves with is never 0 (and
fits 32 bits), and the stored value equals `n` exactly when `n < 2^32`. -/
theorem imo_narrowing (line : Bytes) (rest : List Bytes) (n : Int)
    (hparse : Atoi (TrimSpace line) = n) (hpos : 0 < n) :
    imoStep 0 line = (n % 2 ^ 32).toNat
      ∧ (imoLoop 0 (line :: rest) = some ((n % 2 ^ 32).toNat, rest) ↔ n % 2 ^ 32 ≠ 0)
      ∧ (n % 2 ^ 32 = 0 → imoLoop 0 (line :: rest) = imoLoop 0 rest)
      ∧ (∀ (reader : List Bytes) (IMONumber : Nat) (unread : List Bytes),
          imoLoop 0 reader = some (IMONumber, unread) → IMONumber ≠ 0)
      ∧ (((n % 2 ^ 32).toNat : Int) = n ↔ n < 2 ^ 32) := by
  subst hparse
  have hstep : imoStep 0 line = (Atoi (TrimSpace line) % 2 ^ 32).toNat := by
    simp only [imoStep, gt_iff_lt, if_pos hpos]
  refine ⟨hstep, ⟨fun h => ?_, fun h => imoLoop_accept line rest ⟨hpos, h⟩⟩, fun h0 => ?_,
    fun reader IMONumber unread h => (imoLoop_rest reader 0 _ _ h).2.1, ?_⟩
  · intro h0
    have hrej : ¬ imoAccepted line := fun ha => ha.2 h0
    rw [imoLoop_reject line rest hrej] at h
    have := (imoLoop_rest rest 0 _ _ h).2.2 rfl
    omega
  · exact imoLoop_reject line rest (fun ha => ha.2 h0)
  · have hnn := Int.emod_nonneg (Atoi (TrimSpace line)) (show (2 : Int) ^ 32 ≠ 0 by norm_num)
    have hlt := Int.emod_lt_of_pos (Atoi (TrimSpace line)) (show (0 : Int) < 2 ^ 32 by norm_num)
    constructor
    · intro h
      omega
    · intro h
      rw [Int.toNat_of_nonneg hnn]
      exact Int.emod_eq_of_lt (le_of_lt hpos) h

/-- Witness of `imo_narrowing`: the line "4294967297" parses to 2^32 + 1 and is
stored as 1. -/
theorem imo_narrowing_witness :
    Atoi (TrimSpace (ascii "4294967297\n")) = 4294967297
      ∧ imoStep 0 (ascii "4294967297\n") = 1
      ∧ imoStep 0 (ascii "4294967297\n") = ((4294967297 : Int) % 2 ^ 32).toNat :=
  ⟨by decide, by decide,
    (imo_narrowing (ascii "4294967297\n") [] 4294967297 (by decide) (by decide)).1⟩

/-! ## No byte of an upper-cased name is `FF` -/

theorem cont_byte_lt (x : Nat) : 0x80 ||| (x &&& 0x3F) < 0xC0 := by
  have h : x &&& 0x3F < 64 := Nat.and_lt_two_pow x (show 0x3F < 2 ^ 6 by norm_num)
  generalize x &&& 0x3F = y at h
  interval_cases y <;> decide

theorem lead2_lt (k : Nat) (h : k < 32) : 0xC0 ||| k < 0xE0 := by
  interval_cases k <;> decide

theorem lead3_lt (k : Nat) (h : k < 16) : 0xE0 ||| k < 0xF0 := by
  interval_cases k <;> decide

theorem lead4_lt (k : Nat) (h : k < 5) : 0xF0 ||| k < 0xF5 := by
  interval_cases k <;> decide

theorem encode3_lt (r : Nat) (h : r ≤ 0xFFFF) : ∀ b ∈ encode3 r, b < 0xF5 := by
  intro b hb
  simp only [encode3, List.mem_cons, List.mem_singleton, List.not_mem_nil, or_false] at hb
  have h1 : (r >>> 12) % 256 < 16 := by
    rw [Nat.shiftRight_eq_div_pow]; omega
  rcases hb with hb | hb | hb
  · have := lead3_lt _ h1; omega
  · have := cont_byte_lt ((r >>> 6) % 256); omega
  · have := cont_byte_lt (r % 256); omega

theorem AppendRune_lt (r : Nat) : ∀ b ∈ AppendRune r, b < 0xF5 := by
  unfold AppendRune
  split_ifs with h1 h2 h3 h4
  · intro b hb
    simp only [List.mem_singleton] at hb
    omega
  · intro b hb
    simp only [List.mem_cons, List.mem_singleton, List.not_mem_nil, or_false] at hb
    have hk : (r >>> 6) % 256 < 32 := by
      rw [Nat.shiftRight_eq_div_pow]; omega
    rcases hb with hb | hb
    · have := lead2_lt _ hk; omega
    · have := cont_byte_lt (r % 256); omega
  · exact encode3_lt RuneError (by decide)
  · exact encode3_lt r h4
  · intro b hb
    simp only [List.mem_cons, List.mem_singleton, List.not_mem_nil, or_false] at hb
    have hk : (r >>> 18) % 256 < 5 := by
      rw [Nat.shiftRight_eq_div_pow]; omega
    rcases hb with hb | hb | hb | hb
    · have := lead4_lt _ hk; omega
    · have := cont_byte_lt ((r >>> 12) % 256); omega
    · have := cont_byte_lt ((r >>> 6) % 256); omega
    · have := cont_byte_lt (r % 256); omega

theorem first_cases (b : Nat) :
    (first b = 0xF0 ∧ b < 0x80) ∨ first b = 0xF1
      ∨ (first b < 0xF0 ∧ 0xC2 ≤ b ∧ b ≤ 0xF4) := by
  unfold first
  split_ifs <;> omega

theorem acceptRanges_hi (k : Nat) : (acceptRanges k).2 ≤ 0xBF := by
  unfold acceptRanges
  split <;> simp

theorem decode_step (s0 : Nat) (t : Bytes) :
    1 ≤ (DecodeRuneInString (s0 :: t)).2
      ∧ (((DecodeRuneInString (s0 :: t)).1 = RuneError ∧ (DecodeRuneInString (s0 :: t)).2 = 1)
        ∨ ∀ x ∈ (s0 :: t).take (DecodeRuneInString (s0 :: t)).2, x < 0xF5) := by
  rcases first_cases s0 with ⟨hx, hb⟩ | hx | ⟨hx, hlo, hhi⟩
  · simp only [DecodeRuneInString, hx]
    simp
    right
    omega
  · simp only [DecodeRuneInString, hx]
    simp
  · have hacc := acceptRanges_hi (first s0 / 16)
    have hge : ¬ 0xF0 ≤ first s0 := by omega
    rcases t with _ | ⟨s1, t1⟩
    · simp only [DecodeRuneInString, ge_iff_le, if_neg hge]
      split_ifs <;> simp
    · rcases t1 with _ | ⟨s2, t2⟩
      · simp only [DecodeRuneInString, ge_iff_le, if_neg hge]
        split_ifs <;> simp
        omega
      · rcases t2 with _ | ⟨s3, t3⟩
        · simp only [DecodeRuneInString, ge_iff_le, if_neg hge]
          split_ifs <;> simp <;> omega
        · simp only [DecodeRuneInString, ge_iff_le, if_neg hge]
          split_ifs <;> simp <;> omega

theorem mapRest_lt (mapping : Nat → Nat) (fuel : Nat) :
    ∀ s : Bytes, ∀ b ∈ mapRest mapping fuel s, b < 0xF5 := by
  induction fuel with
  | zero => intro s b hb; simp [mapRest] at hb
  | succ k ih =>
    intro s b hb
    rcases s with _ | ⟨s0, t⟩
    · simp [mapRest] at hb
    · simp only [mapRest, List.mem_append] at hb
      rcases hb with hb | hb
      · exact AppendRune_lt _ b hb
      · exact ih _ b hb

theorem mem_of_take_drop (s : Bytes) (n : Nat) (P : Nat → Prop)
    (h1 : ∀ b ∈ s.take n, P b) (h2 : ∀ b ∈ s.drop n, P b) : ∀ b ∈ s, P b := by
  intro b hb
  rw [← List.take_append_drop n s, List.mem_append] at hb
  rcases hb with hb | hb
  · exact h1 b hb
  · exact h2 b hb

theorem mapScan_lt (mapping : Nat → Nat) (fuel : Nat) :
    ∀ (i : Nat) (s : Bytes), s.length ≤ fuel →
      (mapScan mapping fuel i s = none → ∀ b ∈ s, b < 0xF5)
        ∧ (∀ j r w, mapScan mapping fuel i s = some (j, r, w) →
            i ≤ j ∧ ∀ b ∈ s.take (j - i), b < 0xF5) := by
  induction fuel with
  | zero =>
    intro i s hlen
    have hs : s = [] := List.length_eq_zero.1 (by omega)
    subst hs
    simp [mapScan]
  | succ k ih =>
    intro i s hlen
    rcases s with _ | ⟨s0, t⟩
    · simp [mapScan]
    · obtain ⟨hstep, hbytes⟩ := decode_step s0 t
      have hdrop : ((s0 :: t).drop (DecodeRuneInString (s0 :: t)).2).length ≤ k := by
        rw [List.length_drop]
        simp only [List.length_cons] at hlen ⊢
        omega
      have ihd := ih (i + (DecodeRuneInString (s0 :: t)).2) _ hdrop
      have hcont : ¬ ((DecodeRuneInString (s0 :: t)).1 = RuneError
          ∧ (DecodeRuneInString (s0 :: t)).2 = 1) →
          (mapScan mapping k (i + (DecodeRuneInString (s0 :: t)).2)
              ((s0 :: t).drop (DecodeRuneInString (s0 :: t)).2) = none →
              ∀ b ∈ s0 :: t, b < 0xF5)
            ∧ (∀ j r w, mapScan mapping k (i + (DecodeRuneInString (s0 :: t)).2)
              ((s0 :: t).drop (DecodeRuneInString (s0 :: t)).2) = some (j, r, w) →
              i ≤ j ∧ ∀ b ∈ (s0 :: t).take (j - i), b < 0xF5) := by
        intro hnot
        have htake : ∀ x ∈ (s0 :: t).take (DecodeRuneInString (s0 :: t)).2, x < 0xF5 := by
          rcases hbytes with hbad | hok
          · exact absurd hbad hnot
          · exact hok
        refine ⟨fun hnone => mem_of_take_drop _ _ _ htake (ihd.1 hnone), ?_⟩
        intro j r w hsome
        obtain ⟨hij, hpre⟩ := ihd.2 j r w hsome
        refine ⟨by omega, ?_⟩
        have hsplit : j - i = (DecodeRuneInString (s0 :: t)).2
            + (j - (i + (DecodeRuneInString (s0 :: t)).2)) := by omega
        rw [hsplit, List.take_add]
        intro b hb
        rw [List.mem_append] at hb
        rcases hb with hb | hb
        · exact htake b hb
        · exact hpre b hb
      simp only [mapScan]
      split_ifs with h1 h2 h3 h4
      · exact hcont (fun hbad => h1.2 hbad.1)
      · exact hcont (fun hbad => h3.2.1 hbad.2)
      · simp
      · exact absurd h4.1 h2
      · simp

theorem Map_lt (mapping : Nat → Nat) (s : Bytes) : ∀ b ∈ Map mapping s, b < 0xF5 := by
  unfold Map
  have h := mapScan_lt mapping s.length 0 s (le_refl _)
  split
  · next hnone => exact h.1 hnone
  · next i r width hsome =>
    intro b hb
    simp only [List.mem_append] at hb
    rcases hb with (hb | hb) | hb
    · exact (h.2 i r width hsome).2 b (by simpa using hb)
    · exact AppendRune_lt r b hb
    · exact mapRest_lt mapping _ _ b hb

theorem ToUpper_lt (table : Nat → Nat) (s : Bytes) : ∀ b ∈ ToUpper table s, b < 0xF5 := by
  unfold ToUpper
  simp only
  split_ifs with hascii hlow
  · intro b hb
    simp only [List.all_eq_true, decide_eq_true_eq, RuneSelf] at hascii
    have := hascii b hb
    omega
  · intro b hb
    simp only [List.all_eq_true, decide_eq_true_eq, RuneSelf] at hascii
    simp only [List.mem_map] at hb
    obtain ⟨c, hc, rfl⟩ := hb
    have := hascii c hc
    split_ifs <;> omega
  · exact Map_lt _ s

/-! ## Where the terminator occurs -/

theorem not_occursAt_of_lt (front back : Bytes) (i : Nat) (hi : i < front.length)
    (hfront : ∀ b ∈ front, b < 0xF5) : ¬ occursAt (front ++ back) i := by
  unfold occursAt terminator
  rw [List.drop_append_of_le_length (le_of_lt hi)]
  have hmem : front.getD i 0 ∈ front := by
    rw [List.getD_eq_getElem _ _ hi]
    exact List.getElem_mem hi
  have hlt := hfront _ hmem
  rw [List.drop_eq_getElem_cons hi]
  rw [List.getD_eq_getElem _ _ hi] at hlt
  intro h
  simp only [List.cons_append, List.take_succ_cons, List.cons.injEq] at h
  omega

theorem occursAt_append_of_ge (front back : Bytes) (i : Nat) (hi : front.length ≤ i) :
    occursAt (front ++ back) i ↔ occursAt back (i - front.length) := by
  unfold occursAt
  rw [List.drop_append_eq_append_drop, List.drop_of_length_le hi, List.nil_append]

theorem PutUint32_ne_terminator (n : Nat) (hn : n < 2 ^ 32 - 1) : PutUint32 n ≠ terminator := by
  unfold PutUint32 terminator
  simp only [Nat.shiftRight_eq_div_pow, ne_eq, List.cons.injEq, and_true, not_and]
  intro h0 h1 h2
  omega

theorem occursAt_tail (b0 b1 b2 b3 : Nat) (hb : [b0, b1, b2, b3] ≠ terminator) (k : Nat) :
    occursAt ([b0, b1, b2, b3] ++ (hardcodedSpeedData ++ terminator)) k ↔ k = 45 := by
  by_cases hk : k < 49
  · interval_cases k <;> simp [occursAt, terminator, hardcodedSpeedData]
    simpa [terminator] using hb
  · constructor
    · intro h
      unfold occursAt at h
      rw [List.drop_of_length_le (by simp [hardcodedSpeedData, terminator]; omega)] at h
      simp [terminator] at h
    · intro h
      omega

theorem header_front_lt (table : Nat → Nat) (shipName : Bytes) :
    ∀ b ∈ [0x41, 0x56, 0x44, 0x52, 0x01] ++ shipNameEncoded table shipName, b < 0xF5 := by
  intro b hb
  rw [shipNameEncoded_eq] at hb
  simp only [List.mem_append, List.mem_cons, List.mem_singleton, List.not_mem_nil, or_false,
    List.mem_replicate] at hb
  rcases hb with hb | hb | hb
  · omega
  · exact ToUpper_lt table shipName b hb
  · omega

/-- C9, as the code behaves, amended: for every ship name and every IMO number other
than 4294967295 (0xFFFFFFFF), the terminator `FF FF FF FF` occurs in the byte sequence
`newVDRFile` assembles at exactly one offset, that of its final 4 bytes. -/
theorem terminator_once (table : Nat → Nat) (shipName : Bytes) (IMONumber : Nat)
    (himo : IMONumber < 2 ^ 32 - 1) (i : Nat) :
    occursAt (initialData table shipName IMONumber) i
      ↔ i = (initialData table shipName IMONumber).length - 4 := by
  have hlen : (initialData table shipName IMONumber).length
      = ([0x41, 0x56, 0x44, 0x52, 0x01] ++ shipNameEncoded table shipName).length + 49 := by
    rw [initialData_eq]
    simp [PutUint32, hardcodedSpeedData, terminator]
  rw [hlen, initialData_eq]
  by_cases hi : i < ([0x41, 0x56, 0x44, 0x52, 0x01] ++ shipNameEncoded table shipName).length
  · constructor
    · intro h
      exact absurd h (not_occursAt_of_lt _ _ i hi (header_front_lt table shipName))
    · intro h
      omega
  · rw [occursAt_append_of_ge _ _ i (by omega)]
    have htail := occursAt_tail (IMONumber % 256) ((IMONumber >>> 8) % 256)
      ((IMONumber >>> 16) % 256) ((IMONumber >>> 24) % 256)
      (PutUint32_ne_terminator IMONumber himo)
      (i - ([0x41, 0x56, 0x44, 0x52, 0x01] ++ shipNameEncoded table shipName).length)
    have hput : PutUint32 IMONumber = [IMONumber % 256, (IMONumber >>> 8) % 256,
      (IMONumber >>> 16) % 256, (IMONumber >>> 24) % 256] := rfl
    rw [hput, htail]
    omega

/-- Witness of `terminator_once`: "Example Vessel", 1234567, where the only occurrence
is at offset 82 of 86. -/
theorem terminator_once_witness :
    (1234567 < 2 ^ 32 - 1)
      ∧ (occursAt (initialData sampleCaseTable (ascii "Example Vessel") 1234567) 82
          ↔ 82 = (initialData sampleCaseTable (ascii "Example Vessel") 1234567).length - 4)
      ∧ occursAt (initialData sampleCaseTable (ascii "Example Vessel") 1234567) 82 :=
  ⟨by decide,
    terminator_once sampleCaseTable (ascii "Example Vessel") 1234567 (by decide) 82,
    by decide⟩

/-- C9 as stated fails: for the lines "A" and "4294967295" the IMO field itself is
`FF FF FF FF`, so the terminator also occurs at offset 37, well before the final 4
bytes at offset 82. -/
theorem terminator_twice :
    newVDRFile sampleCaseTable [ascii "A\n", ascii "4294967295\n"]
        = some (initialData sampleCaseTable (ascii "A") 4294967295)
      ∧ (initialData sampleCaseTable (ascii "A") 4294967295).length = 86
      ∧ occursAt (initialData sampleCaseTable (ascii "A") 4294967295) 37
      ∧ occursAt (initialData sampleCaseTable (ascii "A") 4294967295) 82 := by
  decide

/-! ## Reading the header back -/

theorem dropSpaces_replicate (k : Nat) (rev : Bytes) :
    dropSpaces (List.replicate k 0x20 ++ rev) = dropSpaces rev := by
  induction k with
  | zero => simp
  | succ n ih => simp [List.replicate_succ, dropSpaces, ih]

theorem decodeText_padded (name : Bytes) (k : Nat) (h : name.getLast? ≠ some 0x20) :
    decodeText (name ++ List.replicate k 0x20) = name := by
  unfold decodeText
  rw [List.reverse_append, List.reverse_replicate, dropSpaces_replicate]
  have hrev : dropSpaces name.reverse = name.reverse := by
    rw [List.getLast?_eq_head?_reverse] at h
    rcases hr : name.reverse with _ | ⟨c, rev⟩
    · rfl
    · rw [hr] at h
      simp only [List.head?_cons, ne_eq, Option.some.injEq] at h
      simp [dropSpaces, h]
  rw [hrev, List.reverse_reverse]

theorem decodeU32LE_PutUint32 (n : Nat) (hn : n < 2 ^ 32) : decodeU32LE (PutUint32 n) = n := by
  simp only [decodeU32LE, PutUint32, List.getD_cons_zero, List.getD_cons_succ,
    Nat.shiftRight_eq_div_pow]
  omega

theorem decodeHeader_initialData (table : Nat → Nat) (shipName : Bytes) (IMONumber : Nat)
    (hlen : (ToUpper table shipName).length ≤ 32)
    (hlast : (ToUpper table shipName).getLast? ≠ some 0x20) (himo : IMONumber < 2 ^ 32) :
    decodeHeader (initialData table shipName IMONumber)
      = .ok { shipName := ToUpper table shipName, imoNumber := IMONumber,
              speedTable := [⟨2, ascii "DEADSLW"⟩, ⟨5, ascii "SLOW   "⟩,
                ⟨10, ascii "HALF   "⟩, ⟨20, ascii "FULL   "⟩, ⟨22, ascii "FLANK  "⟩] } := by
  have hfield : (shipNameEncoded table shipName).length = 32 := by
    rw [shipNameEncoded_length]; omega
  have hbytes : initialData table shipName IMONumber
      = [0x41, 0x56, 0x44, 0x52, 0x01] ++ (shipNameEncoded table shipName
        ++ (PutUint32 IMONumber ++ (hardcodedSpeedData ++ terminator))) := by
    rw [initialData_eq, List.append_assoc]
  have hd5 : (initialData table shipName IMONumber).drop 5
      = shipNameEncoded table shipName
        ++ (PutUint32 IMONumber ++ (hardcodedSpeedData ++ terminator)) := by
    rw [hbytes]; rfl
  have hd37 : (initialData table shipName IMONumber).drop 37
      = PutUint32 IMONumber ++ (hardcodedSpeedData ++ terminator) := by
    rw [show 37 = 5 + 32 from rfl, ← List.drop_drop, hd5]
    exact List.drop_left' hfield
  have hd41 : (initialData table shipName IMONumber).drop 41
      = hardcodedSpeedData ++ terminator := by
    rw [show 41 = 37 + 4 from rfl, ← List.drop_drop, hd37]
    rfl
  have hd82 : (initialData table shipName IMONumber).drop 82 = terminator := by
    rw [show 82 = 41 + 41 from rfl, ← List.drop_drop, hd41]
    rfl
  have hl := initialData_length table shipName IMONumber
  have hmax : max 32 (ToUpper table shipName).length = 32 := by omega
  rw [hmax] at hl
  have hspeed : decodeSpeedTable (initialData table shipName IMONumber) 41
      = .ok ([⟨2, ascii "DEADSLW"⟩, ⟨5, ascii "SLOW   "⟩, ⟨10, ascii "HALF   "⟩,
          ⟨20, ascii "FULL   "⟩, ⟨22, ascii "FLANK  "⟩], 82) := by
    unfold decodeSpeedTable
    rw [hd41]
    decide
  have hname : decodeText (((initialData table shipName IMONumber).drop 5).take 32)
      = ToUpper table shipName := by
    rw [hd5, List.take_left' hfield, shipNameEncoded_eq]
    exact decodeText_padded _ _ hlast
  have himoD : decodeU32LE (((initialData table shipName IMONumber).drop 37).take 4)
      = IMONumber := by
    rw [hd37]
    exact decodeU32LE_PutUint32 IMONumber himo
  have hmagic : (initialData table shipName IMONumber).take 4 = [0x41, 0x56, 0x44, 0x52] := by
    rw [hbytes]; rfl
  have hver : (initialData table shipName IMONumber).getD 4 0 = 1 := by
    rw [hbytes]; rfl
  unfold decodeHeader
  rw [hmagic, hver, hspeed, hl]
  simp only [ne_eq, not_true_eq_false, if_false, hd82, hname, himoD]
  rfl

/-- The round trip on the example of the format description: "Example Vessel",
1234567 decodes to "EXAMPLE VESSEL", 1234567 and the five default speed entries. -/
theorem decodeHeader_example :
    (ToUpper sampleCaseTable (ascii "Example Vessel")).length ≤ 32
      ∧ decodeHeader (initialData sampleCaseTable (ascii "Example Vessel") 1234567)
        = .ok { shipName := ascii "EXAMPLE VESSEL", imoNumber := 1234567,
                speedTable := [⟨2, ascii "DEADSLW"⟩, ⟨5, ascii "SLOW   "⟩,
                  ⟨10, ascii "HALF   "⟩, ⟨20, ascii "FULL   "⟩, ⟨22, ascii "FLANK  "⟩] } :=
  ⟨by decide,
    decodeHeader_initialData sampleCaseTable (ascii "Example Vessel") 1234567
      (by decide) (by decide) (by decide)⟩

/-- C1, the code at the failing input: the lines `ɐ` × 16 and "1234567" are accepted,
the upper-cased name is 48 bytes long, the header is 102 bytes long instead of 86, and
decoding it by the documented layout fails (`Truncated`: the count byte is read inside
the name) instead of yielding the upper-cased name, 1234567 and the default table. -/
theorem header_round_trip_fails :
    newVDRFile sampleCaseTable [turnedA16 ++ [0x0A], ascii "1234567\n"]
        = some (initialData sampleCaseTable turnedA16 1234567)
      ∧ (ToUpper sampleCaseTable turnedA16).length = 48
      ∧ (initialData sampleCaseTable turnedA16 1234567).length = 102
      ∧ decodeHeader (initialData sampleCaseTable turnedA16 1234567) = .error .Truncated := by
  decide

/-! ## Log records -/

theorem foldl_xor_shift (l : Bytes) (acc x : Nat) :
    l.foldl (fun a b => a ^^^ b) (acc ^^^ x) = l.foldl (fun a b => a ^^^ b) acc ^^^ x := by
  induction l generalizing acc with
  | nil => rfl
  | cons a t ih =>
    simp only [List.foldl_cons]
    rw [show acc ^^^ x ^^^ a = acc ^^^ a ^^^ x by
      rw [Nat.xor_assoc, Nat.xor_comm x a, ← Nat.xor_assoc]]
    exact ih (acc ^^^ a)

theorem foldl_xor_set (l : Bytes) :
    ∀ (i acc x : Nat), i < l.length →
      (l.set i (l.getD i 0 ^^^ x)).foldl (fun a b => a ^^^ b) acc
        = l.foldl (fun a b => a ^^^ b) acc ^^^ x := by
  induction l with
  | nil => intro i acc x hi; simp at hi
  | cons a t ih =>
    intro i acc x hi
    cases i with
    | zero =>
      simp only [List.set_cons_zero, List.getD_cons_zero, List.foldl_cons]
      rw [← Nat.xor_assoc]
      exact foldl_xor_shift t (acc ^^^ a) x
    | succ k =>
      simp only [List.set_cons_succ, List.getD_cons_succ, List.foldl_cons]
      exact ih k (acc ^^^ a) x (by simpa using hi)

theorem checksum_flip (l : Bytes) (i j : Nat) (hi : i < l.length) :
    checksum (l.set i (l.getD i 0 ^^^ 2 ^ j)) ≠ checksum l := by
  unfold checksum
  rw [foldl_xor_set l i 0 (2 ^ j) hi]
  intro h
  have h2 : l.foldl (fun a b => a ^^^ b) 0 ^^^ 2 ^ j = l.foldl (fun a b => a ^^^ b) 0 ^^^ 0 := by
    rw [h, Nat.xor_zero]
  have h3 := Nat.xor_right_inj.1 h2
  have := Nat.pos_pow_of_pos j (show 0 < 2 by norm_num)
  omega

theorem xor_high_bit_mod (x j n : Nat) (h : n ≤ j) : (x ^^^ 2 ^ j) % 2 ^ n = x % 2 ^ n := by
  apply Nat.eq_of_testBit_eq
  intro i
  simp only [Nat.testBit_mod_two_pow, Nat.testBit_xor, Nat.testBit_two_pow]
  by_cases hi : i < n
  · have : ¬ j = i := by omega
    simp [hi, this]
  · simp [hi]

theorem recordBody_length (lenBits timestamp eventType : Nat) (payload : Bytes) :
    (recordBody lenBits timestamp eventType payload).length = 5 + payload.length := by
  simp [recordBody, PutUint32]
  omega

theorem recordBody_flip_getD (lenBits timestamp eventType : Nat) (payload : Bytes) (i j : Nat)
    (hfit : eventType * 2 ^ lenBits + payload.length < 256)
    (hlen : payload.length < 2 ^ lenBits) (hbit : i = 4 → lenBits ≤ j) :
    ((recordBody lenBits timestamp eventType payload).set i
        ((recordBody lenBits timestamp eventType payload).getD i 0 ^^^ 2 ^ j)).getD 4 0
        % 2 ^ lenBits = payload.length := by
  have htl : (eventType * 2 ^ lenBits + payload.length) % 256 % 2 ^ lenBits
      = payload.length := by
    rw [Nat.mod_eq_of_lt hfit, Nat.add_comm, Nat.add_mul_mod_self_right, Nat.mod_eq_of_lt hlen]
  by_cases h4 : i < 4
  · interval_cases i <;> simpa [recordBody, PutUint32] using htl
  · by_cases h5 : i = 4
    · subst h5
      simp only [recordBody, PutUint32, List.cons_append, List.nil_append, List.getD_cons_succ,
        List.getD_cons_zero, List.set_cons_succ, List.set_cons_zero]
      rw [xor_high_bit_mod _ _ _ (hbit rfl)]
      exact htl
    · obtain ⟨k, rfl⟩ : ∃ k, i = k + 5 := ⟨i - 5, by omega⟩
      simpa [recordBody, PutUint32] using htl

/-- C8, amended after the description of the log record codec: the checksum byte of an
encoded log record is the XOR of all preceding bytes of that record, and flipping a
single bit of its timestamp, of the event-type bits of its type/length byte or of its
payload makes decoding fail with `ChecksumMismatch`, provided the flipped record does
not begin with the terminator `FF FF FF FF`; flips of the length bits are left out. -/
theorem record_bit_flip (lenBits timestamp eventType : Nat) (payload bs : Bytes) (i j : Nat)
    (henc : encodeLogRecord lenBits timestamp eventType payload = .ok bs)
    (hfit : eventType * 2 ^ lenBits + payload.length < 256)
    (hi : i < 5 + payload.length) (hbit : i = 4 → lenBits ≤ j)
    (hterm : (flipBit bs i j).take 4 ≠ terminator) :
    bs.getLast? = some (checksum bs.dropLast)
      ∧ decodeLogRecord lenBits (flipBit bs i j) 0 = .error .ChecksumMismatch := by
  unfold encodeLogRecord at henc
  by_cases hlen : payload.length ≥ 2 ^ lenBits
  · rw [if_pos hlen] at henc
    exact absurd henc (by simp)
  · rw [if_neg hlen] at henc
    have hbs : bs = recordBody lenBits timestamp eventType payload
        ++ [checksum (recordBody lenBits timestamp eventType payload)] :=
      (Except.ok.inj henc).symm
    have hbl := recordBody_length lenBits timestamp eventType payload
    subst hbs
    refine ⟨by rw [List.getLast?_concat, List.dropLast_concat], ?_⟩
    have hflip : flipBit (recordBody lenBits timestamp eventType payload
          ++ [checksum (recordBody lenBits timestamp eventType payload)]) i j
        = (recordBody lenBits timestamp eventType payload).set i
            ((recordBody lenBits timestamp eventType payload).getD i 0 ^^^ 2 ^ j)
          ++ [checksum (recordBody lenBits timestamp eventType payload)] := by
      unfold flipBit
      rw [List.getD_append _ _ _ _ (by omega), List.set_append_left _ _ (by omega)]
    rw [hflip] at hterm ⊢
    generalize hb' : (recordBody lenBits timestamp eventType payload).set i
      ((recordBody lenBits timestamp eventType payload).getD i 0 ^^^ 2 ^ j) = body' at hterm ⊢
    have hlen' : body'.length = 5 + payload.length := by
      rw [← hb', List.length_set, hbl]
    have htl : body'.getD 4 0 % 2 ^ lenBits = payload.length := by
      rw [← hb']
      exact recordBody_flip_getD lenBits timestamp eventType payload i j hfit (by omega) hbit
    have hsum : checksum body' ≠ checksum (recordBody lenBits timestamp eventType payload) := by
      rw [← hb']
      exact checksum_flip _ i j (by omega)
    have hg4 : (body' ++ [checksum (recordBody lenBits timestamp eventType payload)]).getD 4 0
        = body'.getD 4 0 := List.getD_append _ _ _ _ (by omega)
    unfold decodeLogRecord
    simp only [List.drop_zero, if_neg hterm, hg4, htl]
    rw [if_neg (by simp only [List.length_append, List.length_singleton]; omega),
      if_neg (by simp only [List.length_append, List.length_singleton]; omega),
      List.take_left' hlen', List.getD_append_right _ _ _ _ (by omega)]
    simp only [hlen', Nat.sub_self, List.getD_cons_zero]
    rw [if_pos hsum]

/-- Witness of `record_bit_flip`: with 4 length bits, the record of timestamp
1700000000, event type 3 and payload `01 02 03`, bit 0 of its second payload byte
flipped. -/
theorem record_bit_flip_witness :
    encodeLogRecord 4 1700000000 3 [1, 2, 3]
        = .ok [0x00, 0xF1, 0x53, 0x65, 0x33, 1, 2, 3, 0xF4]
      ∧ [0x00, 0xF1, 0x53, 0x65, 0x33, 1, 2, 3, 0xF4].getLast?
        = some (checksum [0x00, 0xF1, 0x53, 0x65, 0x33, 1, 2, 3, 0xF4].dropLast)
      ∧ decodeLogRecord 4 (flipBit [0x00, 0xF1, 0x53, 0x65, 0x33, 1, 2, 3, 0xF4] 6 0) 0
        = .error .ChecksumMismatch :=
  ⟨by decide,
    record_bit_flip 4 1700000000 3 [1, 2, 3] [0x00, 0xF1, 0x53, 0x65, 0x33, 1, 2, 3, 0xF4] 6 0
      (by decide) (by decide) (by decide) (by decide) (by decide)⟩

/-- C8 as stated fails, three ways (4 length bits): flipping the top bit of the
timestamp 0x7FFFFFFF turns the record's first 4 bytes into the terminator and decoding
reports the end of the stream, no error; flipping a length bit of the empty record
makes decoding fail with `Truncated`; and flipping the length bit of a record whose
one payload byte equals the XOR of the bytes before it decodes without any error, as a
record with an empty payload. -/
theorem record_bit_flip_undetected :
    encodeLogRecord 4 0x7FFFFFFF 0 [] = .ok [0xFF, 0xFF, 0xFF, 0x7F, 0, 0x80]
      ∧ decodeLogRecord 4 (flipBit [0xFF, 0xFF, 0xFF, 0x7F, 0, 0x80] 3 7) 0 = .ok none
      ∧ encodeLogRecord 4 0 0 [] = .ok [0, 0, 0, 0, 0, 0]
      ∧ decodeLogRecord 4 (flipBit [0, 0, 0, 0, 0, 0] 4 0) 0 = .error .Truncated
      ∧ encodeLogRecord 4 0 0 [0] = .ok [0, 0, 0, 0, 1, 0, 1]
      ∧ decodeLogRecord 4 (flipBit [0, 0, 0, 0, 1, 0, 1] 4 0) 0
        = .ok (some ({ timestamp := 0, eventType := 0, payload := [] }, 6)) := by
  decide

/-- Whatever the split of the type/length byte, a record that begins with the
terminator decodes as the end of the stream. -/
theorem decodeLogRecord_terminator (lenBits : Nat) (tail : Bytes) :
    decodeLogRecord lenBits (terminator ++ tail) 0 = .ok none := by
  simp [decodeLogRecord, terminator]

/-! ## The round trip of ASCII names -/

theorem trimSpaceRight_ascii (rev : Bytes) (h : ∀ c ∈ rev, c < RuneSelf) :
    (trimSpaceRight rev).getLast? ≠ some 0x20 ∧ ∀ c ∈ trimSpaceRight rev, c < RuneSelf := by
  induction rev with
  | nil => simp [trimSpaceRight]
  | cons c rev ih =>
    have hc : c < RuneSelf := h c (List.mem_cons_self _ _)
    have hrev : ∀ x ∈ rev, x < RuneSelf := fun x hx => h x (List.mem_cons_of_mem _ hx)
    unfold trimSpaceRight
    rw [if_neg (by omega)]
    by_cases hs : asciiSpace c = true
    · rw [if_pos hs]
      exact ih hrev
    · rw [if_neg hs]
      constructor
      · rw [List.reverse_cons, List.getLast?_concat]
        intro h20
        have : c = 0x20 := (Option.some.inj h20)
        subst this
        exact hs (by decide)
      · intro x hx
        exact h x (List.mem_reverse.1 hx)

theorem TrimSpace_ascii (line : Bytes) (h : ∀ c ∈ line, c < RuneSelf) :
    (TrimSpace line).getLast? ≠ some 0x20 ∧ ∀ c ∈ TrimSpace line, c < RuneSelf := by
  induction line with
  | nil => simp [TrimSpace]
  | cons c s ih =>
    have hc : c < RuneSelf := h c (List.mem_cons_self _ _)
    have hs : ∀ x ∈ s, x < RuneSelf := fun x hx => h x (List.mem_cons_of_mem _ hx)
    unfold TrimSpace
    rw [if_neg (by omega)]
    by_cases hsp : asciiSpace c = true
    · rw [if_pos hsp]
      exact ih hs
    · rw [if_neg hsp]
      exact trimSpaceRight_ascii _ (fun x hx => h x (List.mem_reverse.1 hx))

theorem ToUpper_ascii_getLast (table : Nat → Nat) (s : Bytes) (h : ∀ c ∈ s, c < RuneSelf)
    (hlast : s.getLast? ≠ some 0x20) : (ToUpper table s).getLast? ≠ some 0x20 := by
  have hall : s.all (fun c => decide (c < RuneSelf)) = true := by
    simpa [List.all_eq_true] using h
  unfold ToUpper
  simp only [hall, if_true]
  split
  · exact hlast
  · rw [List.getLast?_eq_head?_reverse, ← List.map_reverse, List.head?_map]
    rw [List.getLast?_eq_head?_reverse] at hlast
    rcases hr : s.reverse.head? with _ | c
    · simp
    · rw [hr] at hlast
      simp only [ne_eq, Option.some.injEq] at hlast
      simp only [Option.map_some', ne_eq, Option.some.injEq]
      split_ifs <;> omega

/-- The round trip for ASCII input: whenever the prompt loop accepts an ASCII line,
the header assembled from its trimmed text and a 32-bit IMO number decodes, by the
documented layout, to the upper-cased name, the same IMO number and the five default
speed entries. -/
theorem header_round_trip_ascii (table : Nat → Nat) (line : Bytes) (IMONumber : Nat)
    (hascii : ∀ c ∈ line, c < RuneSelf) (hacc : nameAccepted line)
    (himo : IMONumber < 2 ^ 32) :
    decodeHeader (initialData table (TrimSpace line) IMONumber)
      = .ok { shipName := ToUpper table (TrimSpace line), imoNumber := IMONumber,
              speedTable := [⟨2, ascii "DEADSLW"⟩, ⟨5, ascii "SLOW   "⟩,
                ⟨10, ascii "HALF   "⟩, ⟨20, ascii "FULL   "⟩, ⟨22, ascii "FLANK  "⟩] } := by
  obtain ⟨hlast, hasc⟩ := TrimSpace_ascii line hascii
  apply decodeHeader_initialData table (TrimSpace line) IMONumber
  · rw [ToUpper_length_of_ascii table _ hasc]
    exact hacc.2
  · exact ToUpper_ascii_getLast table _ hasc hlast
  · exact himo

theorem header_round_trip_ascii_example :
    decodeHeader (initialData sampleCaseTable (TrimSpace (ascii " Example Vessel \n")) 1234567)
      = .ok { shipName := ToUpper sampleCaseTable (TrimSpace (ascii " Example Vessel \n")),
              imoNumber := 1234567,
              speedTable := [⟨2, ascii "DEADSLW"⟩, ⟨5, ascii "SLOW   "⟩,
                ⟨10, ascii "HALF   "⟩, ⟨20, ascii "FULL   "⟩, ⟨22, ascii "FLANK  "⟩] } :=
  header_round_trip_ascii sampleCaseTable (ascii " Example Vessel \n") 1234567
    (by decide) (by decide) (by decide)

/-! ## What `newVDRFile` writes -/

theorem shipNameLoop_post (reader : List Bytes) :
    ∀ (current shipName : Bytes) (rest : List Bytes),
      shipNameLoop current reader = some (shipName, rest) →
        0 < shipName.length ∧ shipName.length ≤ 32 := by
  induction reader with
  | nil =>
    intro current shipName rest h
    by_cases hc : current.length = 0 ∨ current.length > 32
    · simp only [shipNameLoop, if_pos hc] at h
      exact absurd h (by simp)
    · simp only [shipNameLoop, if_neg hc, Option.some.injEq, Prod.mk.injEq] at h
      rw [← h.1]
      omega
  | cons l t ih =>
    intro current shipName rest h
    by_cases hc : current.length = 0 ∨ current.length > 32
    · rw [shipNameLoop_read _ l t hc] at h
      exact ih _ _ _ h
    · rw [shipNameLoop_done _ _ hc] at h
      simp only [Option.some.injEq, Prod.mk.injEq] at h
      rw [← h.1]
      omega

theorem imoStep_lt (line : Bytes) : imoStep 0 line < 2 ^ 32 := by
  unfold imoStep
  have hlt := Int.emod_lt_of_pos (Atoi (TrimSpace line)) (show (0 : Int) < 2 ^ 32 by norm_num)
  have hnn := Int.emod_nonneg (Atoi (TrimSpace line)) (show (2 : Int) ^ 32 ≠ 0 by norm_num)
  simp only
  split_ifs
  · omega
  · norm_num

theorem imoLoop_post (reader : List Bytes) :
    ∀ (current IMONumber : Nat) (rest : List Bytes), current < 2 ^ 32 →
      imoLoop current reader = some (IMONumber, rest) →
        IMONumber ≠ 0 ∧ IMONumber < 2 ^ 32 := by
  induction reader with
  | nil =>
    intro current IMONumber rest hcur h
    by_cases hc : current = 0
    · simp only [imoLoop, if_pos hc] at h
      exact absurd h (by simp)
    · simp only [imoLoop, if_neg hc, Option.some.injEq, Prod.mk.injEq] at h
      rw [← h.1]
      exact ⟨hc, hcur⟩
  | cons l t ih =>
    intro current IMONumber rest hcur h
    by_cases hc : current = 0
    · subst hc
      rw [imoLoop_read] at h
      exact ih _ _ _ (imoStep_lt l) h
    · rw [imoLoop_done _ _ hc] at h
      simp only [Option.some.injEq, Prod.mk.injEq] at h
      rw [← h.1]
      exact ⟨hc, hcur⟩

/-- Whatever `newVDRFile` writes is `initialData` of a name of 1 to 32 bytes and a
non-zero 32-bit IMO number. -/
theorem newVDRFile_some (table : Nat → Nat) (reader : List Bytes) (bs : Bytes)
    (h : newVDRFile table reader = some bs) :
    ∃ shipName IMONumber, 0 < shipName.length ∧ shipName.length ≤ 32
      ∧ IMONumber ≠ 0 ∧ IMONumber < 2 ^ 32 ∧ bs = initialData table shipName IMONumber := by
  unfold newVDRFile at h
  rcases hn : shipNameLoop [] reader with _ | ⟨shipName, rest⟩
  · rw [hn] at h
    exact absurd h (by simp)
  · rw [hn] at h
    simp only at h
    rcases hi : imoLoop 0 rest with _ | ⟨IMONumber, unread⟩
    · rw [hi] at h
      exact absurd h (by simp)
    · rw [hi] at h
      simp only [Option.some.injEq] at h
      obtain ⟨h1, h2⟩ := shipNameLoop_post reader [] shipName rest hn
      obtain ⟨h3, h4⟩ := imoLoop_post rest 0 IMONumber unread (by norm_num) hi
      exact ⟨shipName, IMONumber, h1, h2, h3, h4, h.symm⟩

end VDR
